import Mathlib

/-!
Verification of `server_lookup.py` (repository `server-scripts`).

The program loads a JSON array of server-metadata records from a file,
indexes them by lowercased hostname, and either lists all hostnames in
sorted order or prints one record as indented JSON.

We shallowly embed the program: JSON values are the inductive `JVal`
(numbers are modelled as integers; the input records in this repository
use no fractional numbers), Python dictionaries are association lists
with insertion-order semantics, Python exceptions are the `PyErr` sum,
and the file system is passed explicitly (does the file exist, and the
outcome of `json.load` on its content).
-/

namespace ServerLookup

/-- A JSON value as produced by Python's `json.load`.  Numbers are
modelled as integers. -/
inductive JVal where
  | null
  | bool (b : Bool)
  | int (n : Int)
  | str (s : String)
  | arr (xs : List JVal)
  | obj (fields : List (String × JVal))

/-- A Python exception, as far as this program can raise one.
`jsonDecodeError` models `json.JSONDecodeError`, which in Python is a
subclass of `ValueError`. -/
inductive PyErr where
  | fileNotFound (msg : String)
  | jsonDecodeError (msg : String)
  | valueError (msg : String)
  | attributeError (msg : String)
  | typeError (msg : String)
  | keyError (msg : String)
  deriving Repr, DecidableEq

/-- `str.lower()`: ASCII case folding of every character.  (Python folds
full Unicode; the repository's data and the claims only exercise ASCII
hostnames.) -/
def strLower (s : String) : String := ⟨s.data.map Char.toLower⟩

/-- Lexicographic code-point comparison of character lists, the order
Python's `<=` puts on strings. -/
def charsLe : List Char → List Char → Bool
  | [], _ => true
  | _ :: _, [] => false
  | a :: as, b :: bs =>
    if a.toNat < b.toNat then true
    else if b.toNat < a.toNat then false
    else charsLe as bs

/-- Python's `<=` on strings: lexicographic by code point. -/
def strLe (a b : String) : Bool := charsLe a.data b.data

/-- First-match lookup in an association list; models reading a key of a
Python `dict` (whose keys are unique, so first match is the match). -/
def alistGet {α : Type} : List (String × α) → String → Option α
  | [], _ => none
  | p :: rest, k => if p.1 = k then some p.2 else alistGet rest k

/-- `d[k] = v` on a Python `dict`: replaces the value in place if the key
is present, appends the binding otherwise. -/
def dictInsert {α : Type} : List (String × α) → String → α → List (String × α)
  | [], k, v => [(k, v)]
  | p :: rest, k, v => if p.1 = k then (k, v) :: rest else p :: dictInsert rest k v

/-- Python truthiness of a JSON value (`if not hostname: ...`). -/
def pyTruthy : JVal → Bool
  | .null => false
  | .bool b => b
  | .int n => n ≠ 0
  | .str s => s ≠ ""
  | .arr xs => !xs.isEmpty
  | .obj fields => !fields.isEmpty

/-- `row.get(k)`: succeeds on a dictionary, raising `AttributeError` on
any other value. -/
def rowGet (row : JVal) (k : String) : Except PyErr (Option JVal) :=
  match row with
  | .obj fields => .ok (alistGet fields k)
  | _ => .error (.attributeError ("object has no attribute get: " ++ k))

/-- `hostname.lower()`: ASCII case folding models `str.lower`; on a
non-string value the attribute access raises `AttributeError`. -/
def pyLower (v : JVal) : Except PyErr String :=
  match v with
  | .str s => .ok (strLower s)
  | _ => .error (.attributeError "object has no attribute lower")

/-- The record-indexing loop of `load_index` (`server_lookup.py` lines
57-66): for each row, read `hostname` with `row.get`, skip the row when
the result is absent or falsy, otherwise store the row under the
lowercased hostname, later rows overwriting earlier ones. -/
def buildIndex : List JVal → List (String × JVal) → Except PyErr (List (String × JVal))
  | [], index => .ok index
  | row :: rest, index =>
    match rowGet row "hostname" with
    | .error e => .error e
    | .ok none => buildIndex rest index
    | .ok (some hostname) =>
      if pyTruthy hostname then
        match pyLower hostname with
        | .error e => .error e
        | .ok key => buildIndex rest (dictInsert index key row)
      else
        buildIndex rest index

/-- `load_index` (`server_lookup.py` lines 32-66).  The file system is
explicit: `fileExists` is whether the path exists, and `parsed` is the
outcome of `json.load` on the file's content (`.error msg` when the
content is not valid JSON). -/
def load_index (path : String) (fileExists : Bool) (parsed : Except String JVal) :
    Except PyErr (List (String × JVal)) :=
  if !fileExists then
    .error (.fileNotFound ("JSON file not found: " ++ path))
  else
    match parsed with
    | .error msg => .error (.jsonDecodeError msg)
    | .ok data =>
      match data with
      | .arr rows => buildIndex rows []
      | _ => .error (.valueError "Expected a list of server objects in the JSON.")

/-- `lookup` (`server_lookup.py` lines 69-85): lowercase the requested
hostname, raise `KeyError` when it is not a key of the index, return the
stored record otherwise. -/
def lookup (index : List (String × JVal)) (hostname : String) : Except PyErr JVal :=
  let key := strLower hostname
  match alistGet index key with
  | none => .error (.keyError ("Hostname not found: " ++ hostname))
  | some v => .ok v

/-- One hexadecimal digit (lower case), for `\u00XX` string escapes. -/
def hexDigitChar (n : Nat) : Char :=
  if n < 10 then Char.ofNat (48 + n) else Char.ofNat (87 + n)

/-- Decimal digit character. -/
def decDigitChar (n : Nat) : Char := Char.ofNat (48 + n)

/-- Fueled digit expansion (structural recursion on the fuel, so that
concrete values reduce definitionally). -/
def natToCharsAux : Nat → Nat → List Char
  | 0, _ => []
  | fuel + 1, n =>
    if n < 10 then [decDigitChar n]
    else natToCharsAux fuel (n / 10) ++ [decDigitChar (n % 10)]

/-- Decimal digits of a natural number, most significant first; models
Python's `str` on a non-negative `int`. -/
def natToChars (n : Nat) : List Char := natToCharsAux (n + 1) n

/-- Decimal rendering of an integer, models Python's `str` on `int`. -/
def intToChars (n : Int) : List Char :=
  if n < 0 then '-' :: natToChars (-n).toNat else natToChars n.toNat

/-- JSON escaping of one character, as `json.dumps` does (quote,
backslash, the short control escapes, `\u00XX` for other control
characters; other characters are kept literally, as with
`ensure_ascii=False` — the default `\uXXXX` escaping of non-ASCII text
only changes the transport form, not the parsed value). -/
def escapeChar (c : Char) : List Char :=
  if c = '"' then ['\\', '"']
  else if c = '\\' then ['\\', '\\']
  else if c = '\n' then ['\\', 'n']
  else if c = '\t' then ['\\', 't']
  else if c = '\r' then ['\\', 'r']
  else if c = '\x08' then ['\\', 'b']
  else if c = '\x0c' then ['\\', 'f']
  else if c.toNat < 32 then
    ['\\', 'u', '0', '0', hexDigitChar (c.toNat / 16), hexDigitChar (c.toNat % 16)]
  else [c]

/-- JSON escaping of a string body. -/
def escapeChars : List Char → List Char
  | [] => []
  | c :: rest => escapeChar c ++ escapeChars rest

/-- A quoted JSON string literal. -/
def quoteChars (cs : List Char) : List Char :=
  '"' :: escapeChars cs ++ ['"']

/-- `n` spaces. -/
def spaces (n : Nat) : List Char := List.replicate n ' '

mutual

/-- `json.dumps(v, indent=2)` at current indentation `cur`, as a
character list. -/
def dumpsChars : JVal → Nat → List Char
  | .null, _ => "null".toList
  | .bool b, _ => if b then "true".toList else "false".toList
  | .int n, _ => intToChars n
  | .str s, _ => quoteChars s.toList
  | .arr [], _ => "[]".toList
  | .arr (x :: xs), cur =>
    '[' :: '\n' :: spaces (cur + 2) ++ dumpsChars x (cur + 2) ++
      dumpsArrChars xs (cur + 2) ++ '\n' :: spaces cur ++ [']']
  | .obj [], _ => "\x7b\x7d".toList
  | .obj (f :: fs), cur =>
    '\x7b' :: '\n' :: spaces (cur + 2) ++ quoteChars f.1.toList ++ ':' :: ' ' ::
      dumpsChars f.2 (cur + 2) ++ dumpsObjChars fs (cur + 2) ++
      '\n' :: spaces cur ++ ['\x7d']

/-- The remaining array items, each preceded by `",\n"` and indentation. -/
def dumpsArrChars : List JVal → Nat → List Char
  | [], _ => []
  | x :: xs, ind => ',' :: '\n' :: spaces ind ++ dumpsChars x ind ++ dumpsArrChars xs ind

/-- The remaining object members, each preceded by `",\n"` and
indentation, keys separated from values by `": "`. -/
def dumpsObjChars : List (String × JVal) → Nat → List Char
  | [], _ => []
  | f :: fs, ind =>
    ',' :: '\n' :: spaces ind ++ quoteChars f.1.toList ++ ':' :: ' ' ::
      dumpsChars f.2 ind ++ dumpsObjChars fs ind

end

/-- `json.dumps(v, indent=2)` (`server_lookup.py` line 131). -/
def dumps (v : JVal) : String := ⟨dumpsChars v 0⟩

/-- Python `str()` of a JSON value, as `print` renders it.  Only the
string case is ever reached from `main` (the listing prints `hostname`
fields, which are strings whenever `load_index` succeeded); containers
are rendered compactly here while Python would use `repr` quoting. -/
def pyStr : JVal → String
  | .str s => s
  | .int n => ⟨intToChars n⟩
  | .bool b => if b then "True" else "False"
  | .null => "None"
  | v => ⟨dumpsChars v 0⟩

/-- Python subscription `v[k]` with a string key: `KeyError` on a
missing key of a dictionary, `TypeError` on a non-dictionary. -/
def pySubscript (v : JVal) (k : String) : Except PyErr JVal :=
  match v with
  | .obj fields =>
    match alistGet fields k with
    | some x => .ok x
    | none => .error (.keyError k)
  | _ => .error (.typeError "value is not subscriptable by a string")

/-- `sorted(index)`: the keys of the dictionary in ascending
lexicographic (code-point) order.  Python's sort is modelled by
insertion sort: the keys are distinct and the order is total, so the
sorted permutation is unique and any correct sorting algorithm denotes
the same list. -/
def sortedKeys (index : List (String × JVal)) : List String :=
  (index.map Prod.fst).insertionSort (fun a b => strLe a b = true)

/-- The listing loop (`server_lookup.py` lines 120-121):
`for name in sorted(index): print(index[name]["hostname"])`.
Returns the printed lines and the exit code (an unhandled exception
aborts the loop with exit code 1). -/
def listLoop (index : List (String × JVal)) : List String → List String → List String × Nat
  | [], acc => (acc, 0)
  | name :: rest, acc =>
    match alistGet index name with
    | none => (acc, 1)
    | some row =>
      match pySubscript row "hostname" with
      | .error _ => (acc, 1)
      | .ok v => listLoop index rest (acc ++ [pyStr v])

/-- The command-line arguments together with the relevant state of the
file system: `host` is the value of `--host` (absent when omitted),
`jsonPath` the value of `--json`, `jsonFileExists` whether that path
exists, and `jsonParsed` the outcome of `json.load` on its content. -/
structure Args where
  jsonPath : String
  jsonFileExists : Bool
  jsonParsed : Except String JVal
  host : Option String

/-- The observable outcome of one CLI invocation: the lines printed to
standard output, the process exit code, and the final value of the
index dictionary (to state that it is never mutated after
construction; it is `[]` when `load_index` failed before producing
one). -/
structure RunResult where
  output : List String
  exitCode : Nat
  finalIndex : List (String × JVal)

/-- `main` (`server_lookup.py` lines 88-131).  An exception escaping
`main` is an unhandled Python exception: the process prints a traceback
to standard error and exits with code 1. -/
def main (args : Args) : RunResult :=
  match load_index args.jsonPath args.jsonFileExists args.jsonParsed with
  | .error _ => ⟨[], 1, []⟩
  | .ok index =>
    match args.host with
    | none =>
      let r := listLoop index (sortedKeys index) []
      ⟨r.1, r.2, index⟩
    | some host =>
      if host = "" then
        let r := listLoop index (sortedKeys index) []
        ⟨r.1, r.2, index⟩
      else
        match lookup index host with
        | .ok info => ⟨[dumps info], 0, index⟩
        | .error (.keyError msg) => ⟨["\x27" ++ msg ++ "\x27"], 1, index⟩
        | .error _ => ⟨[], 1, index⟩

/-- The `hostname` field of a record object, when it is a string. -/
def recordHostname (row : JVal) : Option String :=
  match row with
  | .obj fields =>
    match alistGet fields "hostname" with
    | some (.str s) => some s
    | _ => none
  | _ => none

/-- The invariant of the index: every stored record is an object whose
`hostname` field is a non-empty string, and the key is its lowercasing. -/
def IndexInv (index : List (String × JVal)) : Prop :=
  ∀ p ∈ index, ∃ s, recordHostname p.2 = some s ∧ s ≠ "" ∧ p.1 = strLower s

/-- A sample record used by concrete witnesses. -/
def sampleRow : JVal := .obj [("hostname", .str "Alpha"), ("os", .str "Linux")]

/-- A second sample record. -/
def sampleRow2 : JVal := .obj [("hostname", .str "beta"), ("os", .str "BSD")]

/-- A record whose hostname collides with `sampleRow` after lowercasing. -/
def dupRow : JVal := .obj [("hostname", .str "ALPHA"), ("os", .str "X")]

/-- The hostname stored with the record under key `k` of the index
(defaulting to `""`; on an index built by `load_index` the default is
never used). -/
def hostAt (idx : List (String × JVal)) (k : String) : String :=
  match alistGet idx k with
  | some row =>
    match recordHostname row with
    | some s => s
    | none => ""
  | none => ""

/-! ### A model of `json.loads`, for the serialization round trip -/

/-- JSON whitespace. -/
def isWsChar (c : Char) : Bool := c = ' ' || c = '\n' || c = '\t' || c = '\r'

/-- Skip leading whitespace. -/
def skipWs : List Char → List Char
  | [] => []
  | c :: rest => if isWsChar c then skipWs rest else c :: rest

/-- Decimal digit test. -/
def isDigitChar (c : Char) : Bool := 48 ≤ c.toNat && c.toNat ≤ 57

/-- Head is not a decimal digit (so that a number literal placed before
this input cannot absorb characters from it). -/
def headNotDigit : List Char → Bool
  | [] => true
  | c :: _ => !isDigitChar c

/-- Value of one hexadecimal digit. -/
def hexVal (c : Char) : Option Nat :=
  if 48 ≤ c.toNat && c.toNat ≤ 57 then some (c.toNat - 48)
  else if 97 ≤ c.toNat && c.toNat ≤ 102 then some (c.toNat - 87)
  else if 65 ≤ c.toNat && c.toNat ≤ 70 then some (c.toNat - 55)
  else none

mutual

/-- Parse the body of a JSON string literal after the opening quote:
the decoded characters and the input after the closing quote. -/
def parseStringBody : List Char → Option (List Char × List Char)
  | [] => none
  | c :: rest =>
    if c = '"' then some ([], rest)
    else if c = '\\' then parseEscape rest
    else (parseStringBody rest).map fun p => (c :: p.1, p.2)

/-- Parse one string escape after the backslash. -/
def parseEscape : List Char → Option (List Char × List Char)
  | [] => none
  | e :: rest2 =>
    if e = '"' then (parseStringBody rest2).map fun p => ('"' :: p.1, p.2)
    else if e = '\\' then (parseStringBody rest2).map fun p => ('\\' :: p.1, p.2)
    else if e = '/' then (parseStringBody rest2).map fun p => ('/' :: p.1, p.2)
    else if e = 'n' then (parseStringBody rest2).map fun p => ('\n' :: p.1, p.2)
    else if e = 't' then (parseStringBody rest2).map fun p => ('\t' :: p.1, p.2)
    else if e = 'r' then (parseStringBody rest2).map fun p => ('\r' :: p.1, p.2)
    else if e = 'b' then (parseStringBody rest2).map fun p => ('\x08' :: p.1, p.2)
    else if e = 'f' then (parseStringBody rest2).map fun p => ('\x0c' :: p.1, p.2)
    else if e = 'u' then parseHex4 rest2
    else none

/-- Parse the four hex digits of a `\uXXXX` escape and the remainder of
the string body. -/
def parseHex4 : List Char → Option (List Char × List Char)
  | h1 :: h2 :: h3 :: h4 :: rest3 =>
    match hexVal h1, hexVal h2, hexVal h3, hexVal h4 with
    | some a, some b, some c2, some d =>
      (parseStringBody rest3).map fun p =>
        (Char.ofNat (((a * 16 + b) * 16 + c2) * 16 + d) :: p.1, p.2)
    | _, _, _, _ => none
  | _ => none

end

/-- Consume leading decimal digits, folding them onto `acc`. -/
def parseDigits : List Char → Nat → Nat × List Char
  | [], acc => (acc, [])
  | c :: rest, acc =>
    if isDigitChar c then parseDigits rest (10 * acc + (c.toNat - 48))
    else (acc, c :: rest)

mutual

/-- Parse one JSON value by fuel-indexed recursive descent (the fuel
bounds the total number of container nodes and elements). -/
def parseVal : Nat → List Char → Option (JVal × List Char)
  | 0, _ => none
  | fuel + 1, input =>
    match skipWs input with
    | [] => none
    | c :: rest =>
      if c = 'n' then
        match rest with
        | 'u' :: 'l' :: 'l' :: r => some (.null, r)
        | _ => none
      else if c = 't' then
        match rest with
        | 'r' :: 'u' :: 'e' :: r => some (.bool true, r)
        | _ => none
      else if c = 'f' then
        match rest with
        | 'a' :: 'l' :: 's' :: 'e' :: r => some (.bool false, r)
        | _ => none
      else if c = '"' then
        match parseStringBody rest with
        | some (cs, r) => some (.str ⟨cs⟩, r)
        | none => none
      else if c = '-' then
        match rest with
        | d :: r2 =>
          if isDigitChar d then
            let p := parseDigits (d :: r2) 0
            some (.int (-(p.1 : Int)), p.2)
          else none
        | [] => none
      else if isDigitChar c then
        let p := parseDigits (c :: rest) 0
        some (.int (p.1 : Int), p.2)
      else if c = '[' then
        match skipWs rest with
        | ']' :: r => some (.arr [], r)
        | r2 =>
          match parseVal fuel r2 with
          | some (v, r3) =>
            match parseArrTail fuel r3 with
            | some (vs, r4) => some (.arr (v :: vs), r4)
            | none => none
          | none => none
      else if c = '\x7b' then
        match skipWs rest with
        | '\x7d' :: r => some (.obj [], r)
        | r2 =>
          match parseMember fuel r2 with
          | some (kv, r3) =>
            match parseObjTail fuel r3 with
            | some (kvs, r4) => some (.obj (kv :: kvs), r4)
            | none => none
          | none => none
      else none

/-- After one array element: a comma and another element, or `]`. -/
def parseArrTail : Nat → List Char → Option (List JVal × List Char)
  | 0, _ => none
  | fuel + 1, input =>
    match skipWs input with
    | ']' :: r => some ([], r)
    | ',' :: r =>
      match parseVal fuel r with
      | some (v, r2) =>
        match parseArrTail fuel r2 with
        | some (vs, r3) => some (v :: vs, r3)
        | none => none
      | none => none
    | _ => none

/-- One `"key": value` object member. -/
def parseMember : Nat → List Char → Option ((String × JVal) × List Char)
  | 0, _ => none
  | fuel + 1, input =>
    match skipWs input with
    | '"' :: rest =>
      match parseStringBody rest with
      | some (cs, r) =>
        match skipWs r with
        | ':' :: r2 =>
          match parseVal fuel r2 with
          | some (v, r3) => some ((⟨cs⟩, v), r3)
          | none => none
        | _ => none
      | none => none
    | _ => none

/-- After one object member: a comma and another member, or the closing
brace. -/
def parseObjTail : Nat → List Char → Option (List (String × JVal) × List Char)
  | 0, _ => none
  | fuel + 1, input =>
    match skipWs input with
    | '\x7d' :: r => some ([], r)
    | ',' :: r =>
      match parseMember fuel r with
      | some (kv, r2) =>
        match parseObjTail fuel r2 with
        | some (kvs, r3) => some (kv :: kvs, r3)
        | none => none
      | none => none
    | _ => none

end

mutual

/-- Node count of a JSON value, a fuel bound for the parser. -/
def jsize : JVal → Nat
  | .null => 1
  | .bool _ => 1
  | .int _ => 1
  | .str _ => 1
  | .arr xs => jsizeL xs + 1
  | .obj fs => jsizeO fs + 1

/-- Fuel bound for the elements of an array. -/
def jsizeL : List JVal → Nat
  | [] => 0
  | x :: xs => jsize x + jsizeL xs + 1

/-- Fuel bound for the members of an object. -/
def jsizeO : List (String × JVal) → Nat
  | [] => 0
  | f :: fs => jsize f.2 + jsizeO fs + 2

end

/-- `json.loads`: parse a complete JSON document (ample fuel; trailing
whitespace allowed, anything else rejected). -/
def json_loads (s : String) : Option JVal :=
  match parseVal (s.data.length + 1) s.data with
  | some (v, r) => if (skipWs r).isEmpty then some v else none
  | none => none

/-! ### Association-list lemmas -/

theorem alistGet_mem {α : Type} {d : List (String × α)} {k : String} {v : α}
    (h : alistGet d k = some v) : (k, v) ∈ d := by
  induction d with
  | nil => simp [alistGet] at h
  | cons p rest ih =>
    by_cases hp : p.1 = k
    · rw [alistGet, if_pos hp] at h
      injection h with h2
      subst h2
      subst hp
      exact List.mem_cons_self _ _
    · rw [alistGet, if_neg hp] at h
      exact List.mem_cons_of_mem _ (ih h)

theorem alistGet_dictInsert {α : Type} (d : List (String × α)) (k k2 : String) (v : α) :
    alistGet (dictInsert d k v) k2 = if k = k2 then some v else alistGet d k2 := by
  induction d with
  | nil =>
    by_cases h : k = k2 <;> simp [dictInsert, alistGet, h]
  | cons p rest ih =>
    rw [dictInsert]
    by_cases hp : p.1 = k
    · rw [if_pos hp]
      by_cases h2 : k = k2 <;> simp [alistGet, h2, hp]
    · rw [if_neg hp]
      rw [alistGet, ih, alistGet]
      by_cases hq : p.1 = k2
      · by_cases h2 : k = k2
        · exact absurd (h2 ▸ hq) hp
        · simp [hq, h2]
      · by_cases h2 : k = k2 <;> simp [hq, h2]

theorem isSome_alistGet_iff {α : Type} {d : List (String × α)} {k : String} :
    (alistGet d k).isSome ↔ k ∈ d.map Prod.fst := by
  induction d with
  | nil => simp [alistGet]
  | cons p rest ih =>
    by_cases hp : p.1 = k
    · simp [alistGet, hp]
    · simp [alistGet, hp, ih, Ne.symm hp]

theorem alistGet_eq_none_iff {α : Type} {d : List (String × α)} {k : String} :
    alistGet d k = none ↔ k ∉ d.map Prod.fst := by
  rw [← isSome_alistGet_iff, Option.isSome_iff_exists]
  cases alistGet d k <;> simp

theorem mem_keys_dictInsert {α : Type} {d : List (String × α)} {k : String} {v : α}
    {a : String} : a ∈ (dictInsert d k v).map Prod.fst ↔ a ∈ d.map Prod.fst ∨ a = k := by
  induction d with
  | nil => simp [dictInsert]
  | cons p rest ih =>
    rw [dictInsert]
    by_cases hp : p.1 = k
    · rw [if_pos hp]
      simp [hp]
      tauto
    · rw [if_neg hp]
      simp [ih]
      tauto

theorem nodup_keys_dictInsert {α : Type} {d : List (String × α)} {k : String} {v : α}
    (h : (d.map Prod.fst).Nodup) : ((dictInsert d k v).map Prod.fst).Nodup := by
  induction d with
  | nil => simp [dictInsert]
  | cons p rest ih =>
    rw [dictInsert]
    by_cases hp : p.1 = k
    · rw [if_pos hp]
      simpa [hp] using h
    · rw [if_neg hp]
      rw [List.map_cons, List.nodup_cons] at h ⊢
      refine ⟨fun hm => ?_, ih h.2⟩
      rcases mem_keys_dictInsert.mp hm with hm | hm
      · exact h.1 hm
      · exact hp hm

theorem mem_dictInsert {α : Type} {d : List (String × α)} {k : String} {v : α}
    {p : String × α} (h : p ∈ dictInsert d k v) : p = (k, v) ∨ p ∈ d := by
  induction d with
  | nil => simpa [dictInsert] using h
  | cons q rest ih =>
    rw [dictInsert] at h
    by_cases hq : q.1 = k
    · rw [if_pos hq] at h
      rcases List.mem_cons.mp h with h | h
      · exact Or.inl h
      · exact Or.inr (List.mem_cons_of_mem _ h)
    · rw [if_neg hq] at h
      rcases List.mem_cons.mp h with h | h
      · exact Or.inr (h ▸ List.mem_cons_self _ _)
      · rcases ih h with h | h
        · exact Or.inl h
        · exact Or.inr (List.mem_cons_of_mem _ h)

/-! ### The index built by `load_index` -/


theorem recordHostname_eq_some {row : JVal} {s : String}
    (h : recordHostname row = some s) :
    ∃ fields, row = .obj fields ∧ alistGet fields "hostname" = some (.str s) := by
  cases row with
  | obj fields =>
    refine ⟨fields, rfl, ?_⟩
    rw [recordHostname] at h
    cases ha : alistGet fields "hostname" with
    | none => rw [ha] at h; cases h
    | some v =>
      rw [ha] at h
      cases v <;> simp_all
  | null => cases h
  | bool b => cases h
  | int n => cases h
  | str t => cases h
  | arr xs => cases h

/-- A row that is a record with a non-empty string hostname is inserted
under the lowercased hostname. -/
theorem buildIndex_cons_record {row : JVal} {fields : List (String × JVal)} {s : String}
    (rest : List JVal) (idx : List (String × JVal))
    (hf : row = .obj fields) (hh : alistGet fields "hostname" = some (.str s))
    (hne : s ≠ "") :
    buildIndex (row :: rest) idx = buildIndex rest (dictInsert idx (strLower s) row) := by
  subst hf
  rw [buildIndex]
  simp [rowGet, hh, pyTruthy, hne, pyLower]

/-- A row whose hostname is absent or the empty string is skipped. -/
theorem buildIndex_cons_skip {row : JVal}
    (rest : List JVal) (idx : List (String × JVal))
    (h : rowGet row "hostname" = .ok none ∨
         rowGet row "hostname" = .ok (some (.str ""))) :
    buildIndex (row :: rest) idx = buildIndex rest idx := by
  rcases h with h | h <;> rw [buildIndex] <;> simp [h, pyTruthy]

theorem buildIndex_inv : ∀ {rows : List JVal} {idx out : List (String × JVal)},
    IndexInv idx → buildIndex rows idx = .ok out → IndexInv out := by
  intro rows
  induction rows with
  | nil =>
    intro idx out h1 h
    rw [buildIndex] at h
    cases h
    exact h1
  | cons row rest ih =>
    intro idx out h1 h
    rw [buildIndex] at h
    split at h
    · cases h
    · exact ih h1 h
    · next hostname hg =>
      by_cases ht : pyTruthy hostname
      · rw [if_pos ht] at h
        split at h
        · cases h
        · next key hl =>
          have hstr : ∃ s, hostname = JVal.str s ∧ key = strLower s := by
            cases hostname <;> simp [pyLower] at hl
            exact ⟨_, rfl, hl.symm⟩
          obtain ⟨s, hsv, hkey⟩ := hstr
          subst hsv
          subst hkey
          have hne : s ≠ "" := by simpa [pyTruthy] using ht
          have hfields : ∃ fields, row = JVal.obj fields ∧
              alistGet fields "hostname" = some (JVal.str s) := by
            cases row with
            | obj fields => exact ⟨fields, rfl, by simpa [rowGet] using hg⟩
            | null => simp [rowGet] at hg
            | bool b => simp [rowGet] at hg
            | int n => simp [rowGet] at hg
            | str t => simp [rowGet] at hg
            | arr xs => simp [rowGet] at hg
          obtain ⟨fields, hrow, hget⟩ := hfields
          refine ih ?_ h
          intro p hp
          rcases mem_dictInsert hp with hp | hp
          · subst hp
            exact ⟨s, by simp [hrow, recordHostname, hget], hne, rfl⟩
          · exact h1 p hp
      · rw [if_neg ht] at h
        exact ih h1 h

theorem buildIndex_nodup : ∀ {rows : List JVal} {idx out : List (String × JVal)},
    (idx.map Prod.fst).Nodup → buildIndex rows idx = .ok out →
    (out.map Prod.fst).Nodup := by
  intro rows
  induction rows with
  | nil =>
    intro idx out h1 h
    rw [buildIndex] at h
    cases h
    exact h1
  | cons row rest ih =>
    intro idx out h1 h
    rw [buildIndex] at h
    split at h
    · cases h
    · exact ih h1 h
    · next hostname hg =>
      by_cases ht : pyTruthy hostname
      · rw [if_pos ht] at h
        split at h
        · cases h
        · exact ih (nodup_keys_dictInsert h1) h
      · rw [if_neg ht] at h
        exact ih h1 h

/-- On a list of records with non-empty string hostnames, `buildIndex`
succeeds and each key holds the last matching row. -/
theorem buildIndex_last_wins {rows : List JVal}
    (hrec : ∀ row ∈ rows, ∃ s, recordHostname row = some s ∧ s ≠ "") :
    ∀ idx, ∃ out, buildIndex rows idx = .ok out ∧
      ∀ k, alistGet out k =
        ((rows.reverse.find? fun row =>
          (recordHostname row).map strLower == some k).or (alistGet idx k)) := by
  induction rows with
  | nil =>
    intro idx
    exact ⟨idx, rfl, fun k => by simp⟩
  | cons row rest ih =>
    intro idx
    obtain ⟨s, hs, hne⟩ := hrec row (List.mem_cons_self _ _)
    obtain ⟨fields, hrow, hget⟩ := recordHostname_eq_some hs
    obtain ⟨out, hout, hspec⟩ :=
      ih (fun r hr => hrec r (List.mem_cons_of_mem _ hr)) (dictInsert idx (strLower s) row)
    refine ⟨out, ?_, fun k => ?_⟩
    · rw [buildIndex_cons_record rest idx hrow hget hne]
      exact hout
    · rw [hspec k, alistGet_dictInsert, List.reverse_cons, List.find?_append,
        List.find?_singleton, Option.or_assoc]
      have hp : ((recordHostname row).map strLower == some k) =
          decide (strLower s = k) := by
        rw [hs]
        by_cases hk : strLower s = k <;> simp [hk]
      rw [hp]
      by_cases hk : strLower s = k
      · simp [hk]
      · simp [hk]

/-- On an existing file parsing to a JSON array, `load_index` is the
indexing loop started from the empty dictionary. -/
theorem load_index_ok_arr (path : String) (rows : List JVal) :
    load_index path true (.ok (.arr rows)) = buildIndex rows [] := rfl

/-- Inversion: a successful `load_index` means the file existed, the
content parsed to an array, and the indexing loop succeeded on it. -/
theorem load_index_ok_inv {path : String} {ex : Bool} {parsed : Except String JVal}
    {idx : List (String × JVal)}
    (h : load_index path ex parsed = .ok idx) :
    ex = true ∧ ∃ rows, parsed = .ok (.arr rows) ∧ buildIndex rows [] = .ok idx := by
  cases ex with
  | false => simp [load_index] at h
  | true =>
    refine ⟨rfl, ?_⟩
    cases parsed with
    | error m => simp [load_index] at h
    | ok v =>
      cases v with
      | arr rows => exact ⟨rows, rfl, by simpa [load_index] using h⟩
      | null => simp [load_index] at h
      | bool b => simp [load_index] at h
      | int n => simp [load_index] at h
      | str t => simp [load_index] at h
      | obj fs => simp [load_index] at h

/-- Every index returned by `load_index` satisfies the invariant and has
no duplicate keys. -/
theorem load_index_invariant {path : String} {ex : Bool} {parsed : Except String JVal}
    {idx : List (String × JVal)}
    (h : load_index path ex parsed = .ok idx) :
    IndexInv idx ∧ (idx.map Prod.fst).Nodup := by
  obtain ⟨-, rows, -, hb⟩ := load_index_ok_inv h
  exact ⟨buildIndex_inv (fun p hp => absurd hp (List.not_mem_nil p)) hb,
    buildIndex_nodup (by simp) hb⟩


/-! ### Claim C2 -/

/-- Claim C2: `lookup` is case-insensitive: for every index and every
pair of hostname strings that agree after lowercasing, `lookup` returns
the same record for both, and it returns a record exactly when the
lowercased name is a key of the index. -/
theorem claim_C2 (index : List (String × JVal)) (a b : String)
    (h : strLower a = strLower b) :
    ((lookup index a).toOption = (lookup index b).toOption) ∧
    ((lookup index a).toOption = alistGet index (strLower a)) ∧
    ((∃ r, lookup index a = .ok r) ↔ strLower a ∈ index.map Prod.fst) := by
  have key : ∀ c : String, (lookup index c).toOption = alistGet index (strLower c) := by
    intro c
    cases hg : alistGet index (strLower c) <;> simp [lookup, hg, Except.toOption]
  refine ⟨?_, key a, ?_⟩
  · rw [key a, key b, h]
  · rw [← isSome_alistGet_iff]
    constructor
    · rintro ⟨r, hr⟩
      rw [← key a, hr]
      rfl
    · intro hs
      obtain ⟨r, hr⟩ := Option.isSome_iff_exists.mp hs
      exact ⟨r, by simp [lookup, hr]⟩

/-- Witness for C2 at the spec's example: `"Host1"`, `"host1"` and
`"HOST1"` all find the record stored under `"host1"`. -/
theorem claim_C2_witness :
    ((lookup [("host1", sampleRow)] "Host1").toOption =
      (lookup [("host1", sampleRow)] "HOST1").toOption) ∧
    ((lookup [("host1", sampleRow)] "Host1").toOption =
      alistGet [("host1", sampleRow)] (strLower "Host1")) ∧
    ((∃ r, lookup [("host1", sampleRow)] "Host1" = .ok r) ↔
      strLower "Host1" ∈ [("host1", sampleRow)].map Prod.fst) :=
  claim_C2 [("host1", sampleRow)] "Host1" "HOST1" rfl

/-! ### Claim C5 -/

/-- Claim C5: index invariant: for every index produced by `load_index`,
every key equals the lowercased `hostname` value of the record stored
under that key. -/
theorem claim_C5 {path : String} {ex : Bool} {parsed : Except String JVal}
    {idx : List (String × JVal)}
    (h : load_index path ex parsed = .ok idx) :
    ∀ k row, alistGet idx k = some row →
      ∃ s, recordHostname row = some s ∧ k = strLower s := by
  obtain ⟨hinv, -⟩ := load_index_invariant h
  intro k row hk
  obtain ⟨s, hs, -, hkey⟩ := hinv (k, row) (alistGet_mem hk)
  exact ⟨s, hs, hkey⟩

/-- Witness for C5 on a concrete index. -/
theorem claim_C5_witness :
    ∃ s, recordHostname sampleRow = some s ∧ "alpha" = strLower s :=
  @claim_C5 "p" true (.ok (.arr [sampleRow])) [("alpha", sampleRow)]
    rfl "alpha" sampleRow rfl

/-! ### Claim C6 -/

/-- Claim C6: elements of the input array whose `hostname` field is
absent or empty are skipped silently by `load_index` (the indexing loop
leaves the accumulated dictionary unchanged on them) and never appear
as values of the index. -/
theorem claim_C6 {path : String} {ex : Bool} {rows : List JVal}
    {idx : List (String × JVal)}
    (h : load_index path ex (.ok (.arr rows)) = .ok idx)
    {row : JVal} (hmem : row ∈ rows)
    (hbad : rowGet row "hostname" = .ok none ∨
            rowGet row "hostname" = .ok (some (.str ""))) :
    (∀ rest idx0, buildIndex (row :: rest) idx0 = buildIndex rest idx0) ∧
    (∀ k, alistGet idx k ≠ some row) := by
  refine ⟨fun rest idx0 => buildIndex_cons_skip rest idx0 hbad, fun k hk => ?_⟩
  obtain ⟨hinv, -⟩ := load_index_invariant h
  obtain ⟨s, hs, hne, -⟩ := hinv (k, row) (alistGet_mem hk)
  obtain ⟨fields, hf, hget⟩ := recordHostname_eq_some hs
  subst hf
  rcases hbad with hb | hb
  · simp [rowGet, hget] at hb
  · simp [rowGet, hget] at hb
    exact hne hb

/-- Witness for C6: a row without a hostname is skipped and is not a
value of the resulting index. -/
theorem claim_C6_witness :
    (∀ rest idx0,
      buildIndex (JVal.obj [("os", JVal.str "X")] :: rest) idx0 = buildIndex rest idx0) ∧
    (∀ k, alistGet [("alpha", sampleRow)] k ≠ some (JVal.obj [("os", JVal.str "X")])) :=
  @claim_C6 "p" true [JVal.obj [("os", JVal.str "X")], sampleRow] [("alpha", sampleRow)]
    rfl (JVal.obj [("os", JVal.str "X")]) (List.mem_cons_self _ _) (Or.inl rfl)

/-! ### Claim C7 -/

/-- Claim C7: `load_index` fails with a file-not-found error whenever
the path does not reference an existing file, and with a
malformed-input error (`json.JSONDecodeError`, a `ValueError` subclass,
or the explicit `ValueError`) whenever the content is not valid JSON or
the top-level value is not a list; such failures are unhandled in
`main`, so the process exits with a non-zero code. -/
theorem claim_C7 (args : Args) :
    (args.jsonFileExists = false →
      load_index args.jsonPath args.jsonFileExists args.jsonParsed =
        .error (.fileNotFound ("JSON file not found: " ++ args.jsonPath))) ∧
    (∀ msg, args.jsonParsed = .error msg → args.jsonFileExists = true →
      load_index args.jsonPath args.jsonFileExists args.jsonParsed =
        .error (.jsonDecodeError msg)) ∧
    (∀ v, args.jsonParsed = .ok v → args.jsonFileExists = true →
      (∀ xs, v ≠ .arr xs) →
      load_index args.jsonPath args.jsonFileExists args.jsonParsed =
        .error (.valueError "Expected a list of server objects in the JSON.")) ∧
    (∀ e, load_index args.jsonPath args.jsonFileExists args.jsonParsed = .error e →
      (main args).exitCode ≠ 0) := by
  refine ⟨fun hex => ?_, fun msg hm hex => ?_, fun v hv hex hna => ?_, fun e he => ?_⟩
  · simp [load_index, hex]
  · simp [load_index, hm, hex]
  · cases v with
    | arr xs => exact absurd rfl (hna xs)
    | null => simp [load_index, hex, hv]
    | bool b => simp [load_index, hex, hv]
    | int n => simp [load_index, hex, hv]
    | str t => simp [load_index, hex, hv]
    | obj fs => simp [load_index, hex, hv]
  · simp [main, he]

/-- Witness for C7: each failure mode at a concrete input. -/
theorem claim_C7_witness :
    (load_index "a.json" false (.ok .null) =
      .error (.fileNotFound "JSON file not found: a.json")) ∧
    (load_index "a.json" true (.error "Expecting value") =
      .error (.jsonDecodeError "Expecting value")) ∧
    (load_index "a.json" true (.ok (.obj [])) =
      .error (.valueError "Expected a list of server objects in the JSON.")) ∧
    (main ⟨"a.json", false, .ok .null, none⟩).exitCode ≠ 0 :=
  ⟨(claim_C7 ⟨"a.json", false, .ok .null, none⟩).1 rfl,
   (claim_C7 ⟨"a.json", true, .error "Expecting value", none⟩).2.1 _ rfl rfl,
   (claim_C7 ⟨"a.json", true, .ok (.obj []), none⟩).2.2.1 _ rfl rfl
     (fun xs h => by cases h),
   (claim_C7 ⟨"a.json", false, .ok .null, none⟩).2.2.2 _
     ((claim_C7 ⟨"a.json", false, .ok .null, none⟩).1 rfl)⟩

/-! ### Claim C10 -/

/-- Claim C10: `load_index` validates only the top-level shape: a list
element that is not an object, or whose `hostname` is a truthy
non-string, makes it raise an `AttributeError`, which is not the
malformed-input `ValueError` (nor the `JSONDecodeError` subclass). -/
theorem claim_C10 :
    (load_index "p" true (.ok (.arr [.int 5])) =
      .error (.attributeError "object has no attribute get: hostname")) ∧
    (load_index "p" true (.ok (.arr [.obj [("hostname", .int 3)]])) =
      .error (.attributeError "object has no attribute lower")) ∧
    (∀ m1 m2 : String, PyErr.attributeError m1 ≠ PyErr.valueError m2 ∧
      PyErr.attributeError m1 ≠ PyErr.jsonDecodeError m2) := by
  refine ⟨rfl, rfl, ?_⟩
  intro m1 m2
  exact ⟨fun h => PyErr.noConfusion h, fun h => PyErr.noConfusion h⟩

/-! ### The sort order of the listing -/

theorem charsLe_trans : ∀ (a b c : List Char),
    charsLe a b = true → charsLe b c = true → charsLe a c = true := by
  intro a
  induction a with
  | nil => intro b c h1 h2; rfl
  | cons x as ih =>
    intro b c h1 h2
    cases b with
    | nil => simp [charsLe] at h1
    | cons y bs =>
      cases c with
      | nil => simp [charsLe] at h2
      | cons z cs =>
        rw [charsLe] at h1 h2 ⊢
        by_cases hxy : x.toNat < y.toNat
        · by_cases hyz : y.toNat < z.toNat
          · simp [Nat.lt_trans hxy hyz]
          · by_cases hzy : z.toNat < y.toNat
            · rw [if_neg hyz, if_pos hzy] at h2; cases h2
            · have : x.toNat < z.toNat := by omega
              simp [this]
        · by_cases hyx : y.toNat < x.toNat
          · rw [if_neg hxy, if_pos hyx] at h1; cases h1
          · by_cases hyz : y.toNat < z.toNat
            · have : x.toNat < z.toNat := by omega
              simp [this]
            · by_cases hzy : z.toNat < y.toNat
              · rw [if_neg hyz, if_pos hzy] at h2; cases h2
              · have hxz : ¬ x.toNat < z.toNat := by omega
                have hzx : ¬ z.toNat < x.toNat := by omega
                rw [if_neg hxy, if_neg hyx] at h1
                rw [if_neg hyz, if_neg hzy] at h2
                rw [if_neg hxz, if_neg hzx]
                exact ih bs cs h1 h2

theorem charsLe_total : ∀ (a b : List Char),
    charsLe a b = true ∨ charsLe b a = true := by
  intro a
  induction a with
  | nil => intro b; exact Or.inl rfl
  | cons x as ih =>
    intro b
    cases b with
    | nil => exact Or.inr rfl
    | cons y bs =>
      rcases Nat.lt_trichotomy x.toNat y.toNat with h | h | h
      · left; simp [charsLe, h]
      · have h1 : ¬ x.toNat < y.toNat := by omega
        have h2 : ¬ y.toNat < x.toNat := by omega
        rcases ih bs with h3 | h3
        · left; simp [charsLe, h1, h2, h3]
        · right; simp [charsLe, h1, h2, h3]
      · right; simp [charsLe, h]

theorem strLe_trans (a b c : String)
    (h1 : strLe a b = true) (h2 : strLe b c = true) : strLe a c = true :=
  charsLe_trans a.data b.data c.data h1 h2

theorem strLe_total (a b : String) : strLe a b = true ∨ strLe b a = true :=
  charsLe_total a.data b.data

/-! ### The listing loop -/

/-- On an index satisfying the invariant, the listing loop prints the
stored hostname of every requested key and exits cleanly. -/
theorem listLoop_ok {idx : List (String × JVal)} (hinv : IndexInv idx) :
    ∀ names, (∀ k ∈ names, k ∈ idx.map Prod.fst) → ∀ acc,
      listLoop idx names acc = (acc ++ names.map (hostAt idx), 0) := by
  intro names
  induction names with
  | nil => intro _ acc; simp [listLoop]
  | cons name rest ih =>
    intro hmem acc
    obtain ⟨row, hrow⟩ := Option.isSome_iff_exists.mp
      (isSome_alistGet_iff.mpr (hmem name (List.mem_cons_self _ _)))
    obtain ⟨s, hs, -, -⟩ := hinv (name, row) (alistGet_mem hrow)
    have hs2 : recordHostname row = some s := hs
    obtain ⟨fields, hf, hget⟩ := recordHostname_eq_some hs2
    have hsub : pySubscript row "hostname" = .ok (.str s) := by
      rw [hf]
      simp [pySubscript, hget]
    have hAt : hostAt idx name = s := by simp [hostAt, hrow, hs2]
    rw [listLoop, hrow]
    simp only [hsub]
    rw [ih (fun k hk => hmem k (List.mem_cons_of_mem _ hk)) (acc ++ [pyStr (.str s)])]
    simp [pyStr, hAt]

/-! ### Claim C1 -/

/-- Claim C1 (amended: the `hostname` fields must moreover be non-empty,
since `load_index` silently skips rows whose hostname is falsy): for
every JSON array of record objects each having a non-empty string
`hostname` field, `load_index` succeeds; the returned index has no
duplicate keys, the record under each key is the last element in input
order whose lowercased hostname equals that key, and its keys are
exactly the lowercased hostnames occurring in the input. -/
theorem claim_C1 (path : String) (rows : List JVal)
    (hrec : ∀ row ∈ rows, ∃ s, recordHostname row = some s ∧ s ≠ "") :
    ∃ idx, load_index path true (.ok (.arr rows)) = .ok idx ∧
      (idx.map Prod.fst).Nodup ∧
      (∀ k, alistGet idx k = rows.reverse.find? fun row =>
        (recordHostname row).map strLower == some k) ∧
      (∀ k, k ∈ idx.map Prod.fst ↔
        ∃ row ∈ rows, (recordHostname row).map strLower = some k) := by
  obtain ⟨out, hout, hspec⟩ := buildIndex_last_wins hrec []
  refine ⟨out, ?_, buildIndex_nodup (by simp) hout, fun k => ?_, fun k => ?_⟩
  · rw [load_index_ok_arr]
    exact hout
  · rw [hspec k]
    simp [alistGet]
  · rw [← isSome_alistGet_iff, hspec k]
    simp [alistGet, List.find?_isSome, List.mem_reverse]

/-- Counterexample to C1 as stated: a row whose `hostname` is the empty
string has a string `hostname` field, yet `load_index` produces an
index with no entry under its lowercased hostname. -/
theorem claim_C1_cex :
    (∀ row ∈ [JVal.obj [("hostname", JVal.str "")]],
      ∃ s : String, recordHostname row = some s) ∧
    load_index "p" true (.ok (.arr [JVal.obj [("hostname", JVal.str "")]])) = .ok [] ∧
    alistGet ([] : List (String × JVal)) (strLower "") = none ∧
    ([JVal.obj [("hostname", JVal.str "")]].reverse.find? fun row =>
      (recordHostname row).map strLower == some (strLower "")) =
      some (JVal.obj [("hostname", JVal.str "")]) := by
  refine ⟨?_, rfl, rfl, rfl⟩
  intro row hr
  rcases List.mem_singleton.mp hr with rfl
  exact ⟨"", rfl⟩

/-- Witness for C1 on an input with a case-colliding duplicate: the
second record wins. -/
theorem claim_C1_witness :
    ∃ idx, load_index "p" true (.ok (.arr [sampleRow, dupRow])) = .ok idx ∧
      (idx.map Prod.fst).Nodup ∧
      (∀ k, alistGet idx k = [sampleRow, dupRow].reverse.find? fun row =>
        (recordHostname row).map strLower == some k) ∧
      (∀ k, k ∈ idx.map Prod.fst ↔
        ∃ row ∈ [sampleRow, dupRow], (recordHostname row).map strLower = some k) :=
  claim_C1 "p" [sampleRow, dupRow] (by
    intro row hr
    simp only [List.mem_cons, List.not_mem_nil, or_false] at hr
    rcases hr with rfl | rfl
    · exact ⟨"Alpha", rfl, by decide⟩
    · exact ⟨"ALPHA", rfl, by decide⟩)

/-! ### Claim C3 -/

/-- Claim C3 (amended: the given `--host` value must be non-empty; the
CLI treats an empty `--host` like an omitted one and lists instead):
with a non-empty `--host` name whose lowercased form is not a key of
the index, the CLI prints a message containing the requested hostname
and exits with code 1; when the name is found, it prints the record as
2-space-indented JSON and exits with code 0. -/
theorem claim_C3 (args : Args) (idx : List (String × JVal)) (host : String)
    (h : load_index args.jsonPath args.jsonFileExists args.jsonParsed = .ok idx)
    (hh : args.host = some host) (hne : host ≠ "") :
    (alistGet idx (strLower host) = none →
      (main args).exitCode = 1 ∧
      ∃ pre post, (main args).output = [pre ++ host ++ post]) ∧
    (∀ r, alistGet idx (strLower host) = some r →
      (main args).exitCode = 0 ∧ (main args).output = [dumps r]) := by
  constructor
  · intro hmiss
    have hmain : main args =
        ⟨["\x27" ++ ("Hostname not found: " ++ host) ++ "\x27"], 1, idx⟩ := by
      simp [main, h, hh, hne, lookup, hmiss]
    rw [hmain]
    refine ⟨rfl, "\x27Hostname not found: ", "\x27", ?_⟩
    rw [← String.append_assoc]
    rfl
  · intro r hfound
    have hmain : main args = ⟨[dumps r], 0, idx⟩ := by
      simp [main, h, hh, hne, lookup, hfound]
    rw [hmain]
    exact ⟨rfl, rfl⟩

/-- Counterexample to C3 as stated: invoked with `--host ""` (and `""`
is not a key of the index), the CLI lists the hostnames and exits with
code 0, not 1. -/
theorem claim_C3_cex :
    (main ⟨"p", true, .ok (.arr [sampleRow]), some ""⟩).exitCode = 0 ∧
    (main ⟨"p", true, .ok (.arr [sampleRow]), some ""⟩).output = ["Alpha"] ∧
    load_index "p" true (.ok (.arr [sampleRow])) = .ok [("alpha", sampleRow)] ∧
    alistGet [("alpha", sampleRow)] (strLower "") = none :=
  ⟨rfl, rfl, rfl, rfl⟩

/-- Witness for C3: a missed lookup exits 1 with the name in the
message; a case-insensitive hit prints the indented record and exits 0. -/
theorem claim_C3_witness :
    ((main ⟨"p", true, .ok (.arr [sampleRow]), some "gamma"⟩).exitCode = 1 ∧
      ∃ pre post,
        (main ⟨"p", true, .ok (.arr [sampleRow]), some "gamma"⟩).output =
          [pre ++ "gamma" ++ post]) ∧
    ((main ⟨"p", true, .ok (.arr [sampleRow]), some "ALPHA"⟩).exitCode = 0 ∧
      (main ⟨"p", true, .ok (.arr [sampleRow]), some "ALPHA"⟩).output =
        [dumps sampleRow]) :=
  ⟨(claim_C3 ⟨"p", true, .ok (.arr [sampleRow]), some "gamma"⟩
      [("alpha", sampleRow)] "gamma" rfl rfl (by decide)).1 rfl,
   (claim_C3 ⟨"p", true, .ok (.arr [sampleRow]), some "ALPHA"⟩
      [("alpha", sampleRow)] "ALPHA" rfl rfl (by decide)).2 sampleRow rfl⟩

/-! ### Claim C4 -/

/-- Claim C4: invoked without `--host`, the CLI prints, for every entry
of the index, the record's original-case `hostname` value, one per
line, in ascending lexicographic order of the (lowercased) keys,
and exits with code 0. -/
theorem claim_C4 (args : Args) (idx : List (String × JVal))
    (h : load_index args.jsonPath args.jsonFileExists args.jsonParsed = .ok idx)
    (hh : args.host = none) :
    (main args).exitCode = 0 ∧
    (main args).output = (sortedKeys idx).map (hostAt idx) ∧
    (sortedKeys idx).Pairwise (fun a b => strLe a b = true) ∧
    (sortedKeys idx).Perm (idx.map Prod.fst) ∧
    (∀ k ∈ sortedKeys idx, ∃ row, alistGet idx k = some row ∧
      recordHostname row = some (hostAt idx k) ∧ k = strLower (hostAt idx k)) := by
  obtain ⟨hinv, -⟩ := load_index_invariant h
  have hperm : (sortedKeys idx).Perm (idx.map Prod.fst) :=
    List.perm_insertionSort _ _
  have hmem : ∀ k ∈ sortedKeys idx, k ∈ idx.map Prod.fst :=
    fun k hk => hperm.mem_iff.mp hk
  have hloop := listLoop_ok hinv (sortedKeys idx) hmem []
  have hmain : main args = ⟨(sortedKeys idx).map (hostAt idx), 0, idx⟩ := by
    simp [main, h, hh, hloop]
  have hsorted : (sortedKeys idx).Pairwise (fun a b => strLe a b = true) :=
    @List.sorted_insertionSort String (fun a b => strLe a b = true)
      (fun a b => inferInstanceAs (Decidable (strLe a b = true)))
      ⟨strLe_total⟩ ⟨strLe_trans⟩ (idx.map Prod.fst)
  refine ⟨by rw [hmain], by rw [hmain], hsorted, hperm, ?_⟩
  intro k hk
  obtain ⟨row, hrow⟩ := Option.isSome_iff_exists.mp
    (isSome_alistGet_iff.mpr (hmem k hk))
  obtain ⟨s, hs, -, hkey⟩ := hinv (k, row) (alistGet_mem hrow)
  have hs2 : recordHostname row = some s := hs
  have hkey2 : k = strLower s := hkey
  have hAt : hostAt idx k = s := by simp [hostAt, hrow, hs2]
  refine ⟨row, hrow, ?_, ?_⟩
  · rw [hAt, hs2]
  · rw [hAt]
    exact hkey2

/-- Witness for C4: records supplied in reverse order are listed in
ascending order of their lowercased hostnames, original case kept. -/
theorem claim_C4_witness :
    (main ⟨"p", true, .ok (.arr [sampleRow2, sampleRow]), none⟩).exitCode = 0 ∧
    (main ⟨"p", true, .ok (.arr [sampleRow2, sampleRow]), none⟩).output =
      ["Alpha", "beta"] := by
  have h := claim_C4 ⟨"p", true, .ok (.arr [sampleRow2, sampleRow]), none⟩
    [("beta", sampleRow2), ("alpha", sampleRow)] rfl rfl
  exact ⟨h.1, h.2.1.trans rfl⟩

/-! ### Claim C9 -/

/-- Claim C9: after construction the index is never mutated: in the
state-passing embedding, the index field of the final state equals the
index `load_index` returned, for the listing branch, the lookup-hit
branch and the lookup-miss branch alike. -/
theorem claim_C9 (args : Args) (idx : List (String × JVal))
    (h : load_index args.jsonPath args.jsonFileExists args.jsonParsed = .ok idx) :
    (main args).finalIndex = idx := by
  cases hh : args.host with
  | none => simp [main, h, hh]
  | some host =>
    by_cases he : host = ""
    · simp [main, h, hh, he]
    · cases hl : lookup idx host with
      | ok r => simp [main, h, hh, he, hl]
      | error e => cases e <;> simp [main, h, hh, he, hl]

/-- Witness for C9 on a concrete invocation. -/
theorem claim_C9_witness :
    (main ⟨"p", true, .ok (.arr [sampleRow]), some "gamma"⟩).finalIndex =
      [("alpha", sampleRow)] :=
  claim_C9 ⟨"p", true, .ok (.arr [sampleRow]), some "gamma"⟩
    [("alpha", sampleRow)] rfl

/-! ### Round trip: character and lexer lemmas -/

theorem char_toNat_ofNat {n : Nat} (h : n.isValidChar) : (Char.ofNat n).toNat = n := by
  rw [Char.ofNat, dif_pos h]
  rfl

theorem isDigitChar_bounds {c : Char} (h : isDigitChar c = true) :
    48 ≤ c.toNat ∧ c.toNat ≤ 57 := by
  simpa [isDigitChar] using h

theorem not_ws_of_digit {c : Char} (h : isDigitChar c = true) : isWsChar c = false := by
  obtain ⟨h1, h2⟩ := isDigitChar_bounds h
  have hs : c ≠ ' ' := fun he => by subst he; revert h1 h2; decide
  have hn : c ≠ '\n' := fun he => by subst he; revert h1 h2; decide
  have ht : c ≠ '\t' := fun he => by subst he; revert h1 h2; decide
  have hr : c ≠ '\r' := fun he => by subst he; revert h1 h2; decide
  simp [isWsChar, hs, hn, ht, hr]

theorem digit_ne_delims {c : Char} (h : isDigitChar c = true) :
    c ≠ 'n' ∧ c ≠ 't' ∧ c ≠ 'f' ∧ c ≠ '"' ∧ c ≠ '-' ∧ c ≠ '[' ∧ c ≠ '\x7b' ∧ c ≠ ']' := by
  obtain ⟨h1, h2⟩ := isDigitChar_bounds h
  refine ⟨?_, ?_, ?_, ?_, ?_, ?_, ?_, ?_⟩
  all_goals intro he
  all_goals subst he
  all_goals revert h1 h2
  all_goals decide

theorem skipWs_cons_not_ws {c : Char} (h : isWsChar c = false) (l : List Char) :
    skipWs (c :: l) = c :: l := by
  simp [skipWs, h]

theorem skipWs_space (l : List Char) : skipWs (' ' :: l) = skipWs l := by
  simp [skipWs, isWsChar]

theorem skipWs_nl (l : List Char) : skipWs ('\n' :: l) = skipWs l := by
  simp [skipWs, isWsChar]

theorem skipWs_spaces : ∀ (n : Nat) (l : List Char), skipWs (spaces n ++ l) = skipWs l := by
  intro n
  induction n with
  | zero => intro l; simp [spaces]
  | succ m ih =>
    intro l
    rw [spaces, List.replicate_succ, List.cons_append, skipWs_space]
    exact ih l

/-! ### Round trip: numbers -/

theorem natToCharsAux_stable : ∀ (f1 n f2 : Nat), n < f1 → n < f2 →
    natToCharsAux f1 n = natToCharsAux f2 n := by
  intro f1
  induction f1 with
  | zero => intro n f2 h1 h2; omega
  | succ g ih =>
    intro n f2 h1 h2
    cases f2 with
    | zero => omega
    | succ g2 =>
      rw [natToCharsAux, natToCharsAux]
      by_cases h : n < 10
      · simp [h]
      · have hd : n / 10 < n := Nat.div_lt_self (by omega) (by omega)
        rw [if_neg h, if_neg h, ih (n / 10) g2 (by omega) (by omega)]

theorem natToChars_eq (n : Nat) :
    natToChars n = if n < 10 then [decDigitChar n]
      else natToChars (n / 10) ++ [decDigitChar (n % 10)] := by
  rw [natToChars, natToCharsAux]
  by_cases h : n < 10
  · simp [h]
  · have hd : n / 10 < n := Nat.div_lt_self (by omega) (by omega)
    rw [if_neg h, if_neg h, natToChars,
      natToCharsAux_stable n (n / 10) (n / 10 + 1) (by omega) (by omega)]

theorem decDigitChar_toNat {d : Nat} (h : d < 10) : (decDigitChar d).toNat = 48 + d := by
  rw [decDigitChar]
  exact char_toNat_ofNat (Or.inl (by omega))

theorem isDigitChar_decDigitChar {d : Nat} (h : d < 10) :
    isDigitChar (decDigitChar d) = true := by
  rw [isDigitChar, decDigitChar_toNat h]
  simp only [Bool.and_eq_true, decide_eq_true_eq]
  omega

theorem natToChars_head (n : Nat) : ∃ c t, natToChars n = c :: t ∧ isDigitChar c = true := by
  induction n using Nat.strong_induction_on with
  | _ n ih =>
    rw [natToChars_eq]
    by_cases h : n < 10
    · exact ⟨decDigitChar n, [], by simp [h], isDigitChar_decDigitChar h⟩
    · obtain ⟨c, t, hct, hd⟩ := ih (n / 10) (Nat.div_lt_self (by omega) (by omega))
      exact ⟨c, t ++ [decDigitChar (n % 10)], by simp [h, hct], hd⟩

theorem parseDigits_stop {l : List Char} (h : headNotDigit l = true) (acc : Nat) :
    parseDigits l acc = (acc, l) := by
  cases l with
  | nil => rfl
  | cons c rest =>
    have hc : isDigitChar c = false := by simpa [headNotDigit] using h
    simp [parseDigits, hc]

theorem parseDigits_append (n : Nat) : ∀ (acc : Nat) (tail : List Char),
    parseDigits (natToChars n ++ tail) acc =
      parseDigits tail (acc * 10 ^ (natToChars n).length + n) := by
  induction n using Nat.strong_induction_on with
  | _ n ih =>
    intro acc tail
    rw [natToChars_eq]
    by_cases h : n < 10
    · rw [if_pos h, List.singleton_append, parseDigits,
        if_pos (isDigitChar_decDigitChar h), decDigitChar_toNat h]
      congr 1
      simp [List.length_singleton]
      omega
    · have hd : n / 10 < n := Nat.div_lt_self (by omega) (by omega)
      have hmod : n % 10 < 10 := by omega
      rw [if_neg h, List.append_assoc, ih (n / 10) hd acc _, List.singleton_append,
        parseDigits, if_pos (isDigitChar_decDigitChar hmod), decDigitChar_toNat hmod]
      congr 1
      rw [List.length_append, List.length_singleton, pow_succ]
      have he : 48 + n % 10 - 48 = n % 10 := by omega
      rw [he]
      have key : ∀ M : Nat, 10 * (acc * M + n / 10) + n % 10 =
          acc * (M * 10) + (10 * (n / 10) + n % 10) := fun M => by ring
      rw [key, show 10 * (n / 10) + n % 10 = n from by omega]

theorem parseDigits_natToChars {tail : List Char} (n : Nat)
    (h : headNotDigit tail = true) :
    parseDigits (natToChars n ++ tail) 0 = (n, tail) := by
  rw [parseDigits_append n 0 tail, parseDigits_stop h]
  simp

/-! ### Round trip: string escaping -/

theorem hexVal_hexDigitChar {d : Nat} (h : d < 16) : hexVal (hexDigitChar d) = some d := by
  rw [hexDigitChar]
  by_cases h10 : d < 10
  · rw [if_pos h10]
    have ht : (Char.ofNat (48 + d)).toNat = 48 + d := char_toNat_ofNat (Or.inl (by omega))
    rw [hexVal, ht]
    have hc : (48 ≤ 48 + d && 48 + d ≤ 57) = true := by
      simp only [Bool.and_eq_true, decide_eq_true_eq]
      omega
    rw [if_pos hc]
    congr 1
    omega
  · rw [if_neg h10]
    have ht : (Char.ofNat (87 + d)).toNat = 87 + d := char_toNat_ofNat (Or.inl (by omega))
    rw [hexVal, ht]
    have hc1 : ¬ (48 ≤ 87 + d && 87 + d ≤ 57) = true := by
      simp only [Bool.and_eq_true, decide_eq_true_eq]
      omega
    rw [if_neg hc1]
    have hc2 : (97 ≤ 87 + d && 87 + d ≤ 102) = true := by
      simp only [Bool.and_eq_true, decide_eq_true_eq]
      omega
    rw [if_pos hc2]
    congr 1
    omega

theorem parseStringBody_escape : ∀ (cs rest : List Char),
    parseStringBody (escapeChars cs ++ ('"' :: rest)) = some (cs, rest) := by
  intro cs
  induction cs with
  | nil => intro rest; simp [escapeChars, parseStringBody]
  | cons c cs ih =>
    intro rest
    rw [escapeChars, List.append_assoc, escapeChar]
    by_cases h1 : c = '"'
    · subst h1
      simp [parseStringBody, parseEscape, ih]
    · rw [if_neg h1]
      by_cases h2 : c = '\\'
      · subst h2
        simp [parseStringBody, parseEscape, ih]
      · rw [if_neg h2]
        by_cases h3 : c = '\n'
        · subst h3
          simp [parseStringBody, parseEscape, ih]
        · rw [if_neg h3]
          by_cases h4 : c = '\t'
          · subst h4
            simp [parseStringBody, parseEscape, ih]
          · rw [if_neg h4]
            by_cases h5 : c = '\r'
            · subst h5
              simp [parseStringBody, parseEscape, ih]
            · rw [if_neg h5]
              by_cases h6 : c = '\x08'
              · subst h6
                simp [parseStringBody, parseEscape, ih]
              · rw [if_neg h6]
                by_cases h7 : c = '\x0c'
                · subst h7
                  simp [parseStringBody, parseEscape, ih]
                · rw [if_neg h7]
                  by_cases h8 : c.toNat < 32
                  · rw [if_pos h8]
                    have hdiv : c.toNat / 16 < 16 := by omega
                    have hmod : c.toNat % 16 < 16 := by omega
                    simp only [List.cons_append, List.nil_append]
                    simp [parseStringBody, parseEscape, parseHex4, hexVal_hexDigitChar hdiv,
                      hexVal_hexDigitChar hmod, ih,
                      show hexVal '0' = some 0 from by decide]
                    rw [show c.toNat / 16 * 16 + c.toNat % 16 = c.toNat from by omega,
                      Char.ofNat_toNat]
                  · rw [if_neg h8]
                    simp [parseStringBody, h1, h2, ih]

/-! ### Round trip: parser dispatch lemmas -/

theorem parseVal_quote (fuel : Nat) (T : List Char) :
    parseVal (fuel + 1) ('"' :: T) =
      (match parseStringBody T with
       | some (cs, r) => some (.str ⟨cs⟩, r)
       | none => none) := rfl

theorem parseVal_openBracket (fuel : Nat) (T : List Char) :
    parseVal (fuel + 1) ('[' :: T) =
      (match skipWs T with
       | ']' :: r => some (.arr [], r)
       | r2 =>
         match parseVal fuel r2 with
         | some (v, r3) =>
           match parseArrTail fuel r3 with
           | some (vs, r4) => some (.arr (v :: vs), r4)
           | none => none
         | none => none) := rfl

theorem parseVal_openBrace (fuel : Nat) (T : List Char) :
    parseVal (fuel + 1) ('\x7b' :: T) =
      (match skipWs T with
       | '\x7d' :: r => some (.obj [], r)
       | r2 =>
         match parseMember fuel r2 with
         | some (kv, r3) =>
           match parseObjTail fuel r3 with
           | some (kvs, r4) => some (.obj (kv :: kvs), r4)
           | none => none
         | none => none) := rfl

theorem parseVal_dash (fuel : Nat) (T : List Char) :
    parseVal (fuel + 1) ('-' :: T) =
      (match T with
       | d :: r2 =>
         if isDigitChar d then
           let p := parseDigits (d :: r2) 0
           some (.int (-(p.1 : Int)), p.2)
         else none
       | [] => none) := rfl

theorem parseVal_digitHead (fuel : Nat) (c : Char) (T : List Char)
    (hd : isDigitChar c = true) :
    parseVal (fuel + 1) (c :: T) =
      some (.int ((parseDigits (c :: T) 0).1 : Int), (parseDigits (c :: T) 0).2) := by
  obtain ⟨h1, h2, h3, h4, h5, -, -, -⟩ := digit_ne_delims hd
  rw [parseVal, skipWs_cons_not_ws (not_ws_of_digit hd)]
  split
  next x heq => simp at heq
  next x c2 T2 heq =>
    injection heq with e1 e2
    subst e1
    subst e2
    rw [if_neg h1, if_neg h2, if_neg h3, if_neg h4, if_neg h5, if_pos hd]

theorem parseVal_ws_congr (f : Nat) (i j : List Char) (h : skipWs i = skipWs j) :
    parseVal f i = parseVal f j := by
  cases f with
  | zero => rfl
  | succ g => rw [parseVal, parseVal, h]

theorem parseMember_ws_congr (f : Nat) (i j : List Char) (h : skipWs i = skipWs j) :
    parseMember f i = parseMember f j := by
  cases f with
  | zero => rfl
  | succ g => rw [parseMember, parseMember, h]

/-! ### Round trip: shape of the serializer's output -/

theorem dumpsChars_shape (v : JVal) (cur : Nat) :
    ∃ c t, dumpsChars v cur = c :: t ∧ isWsChar c = false ∧ c ≠ ']' := by
  cases v with
  | null => exact ⟨'n', _, rfl, by decide, by decide⟩
  | bool b =>
    cases b with
    | true => exact ⟨'t', _, rfl, by decide, by decide⟩
    | false => exact ⟨'f', _, rfl, by decide, by decide⟩
  | int n =>
    rw [show dumpsChars (.int n) cur = intToChars n from rfl, intToChars]
    by_cases h : n < 0
    · rw [if_pos h]
      exact ⟨'-', _, rfl, by decide, by decide⟩
    · rw [if_neg h]
      obtain ⟨c, t, hct, hdg⟩ := natToChars_head n.toNat
      exact ⟨c, t, hct, not_ws_of_digit hdg, (digit_ne_delims hdg).2.2.2.2.2.2.2⟩
  | str s => exact ⟨'"', _, rfl, by decide, by decide⟩
  | arr xs =>
    cases xs with
    | nil => exact ⟨'[', _, rfl, by decide, by decide⟩
    | cons x xs => exact ⟨'[', _, rfl, by decide, by decide⟩
  | obj fs =>
    cases fs with
    | nil => exact ⟨'\x7b', _, rfl, by decide, by decide⟩
    | cons f fs => exact ⟨'\x7b', _, rfl, by decide, by decide⟩

theorem skipWs_dumpsChars (v : JVal) (cur : Nat) (r : List Char) :
    skipWs (dumpsChars v cur ++ r) = dumpsChars v cur ++ r := by
  obtain ⟨c, t, hct, hws, -⟩ := dumpsChars_shape v cur
  rw [hct, List.cons_append, skipWs_cons_not_ws hws]

theorem headNotDigit_dumpsArr (xs : List JVal) (ind : Nat) (l : List Char) :
    headNotDigit (dumpsArrChars xs ind ++ '\n' :: l) = true := by
  cases xs with
  | nil => rfl
  | cons x xs => rfl

theorem headNotDigit_dumpsObj (fs : List (String × JVal)) (ind : Nat) (l : List Char) :
    headNotDigit (dumpsObjChars fs ind ++ '\n' :: l) = true := by
  cases fs with
  | nil => rfl
  | cons f fs => rfl

theorem jsize_pos (v : JVal) : 1 ≤ jsize v := by
  cases v <;> simp [jsize]

/-! ### Round trip: the parser inverts the serializer -/

theorem parse_dumps : ∀ fuel : Nat,
    (∀ v cur rest, jsize v ≤ fuel → headNotDigit rest = true →
      parseVal fuel (dumpsChars v cur ++ rest) = some (v, rest)) ∧
    (∀ xs cur rest, jsizeL xs < fuel →
      parseArrTail fuel
        (dumpsArrChars xs (cur + 2) ++ '\n' :: (spaces cur ++ (']' :: rest))) =
        some (xs, rest)) ∧
    (∀ (k : String) v cur rest, jsize v < fuel → headNotDigit rest = true →
      parseMember fuel
        ('"' :: (escapeChars k.data ++ ('"' :: (':' :: (' ' ::
          (dumpsChars v cur ++ rest)))))) = some ((k, v), rest)) ∧
    (∀ fs cur rest, jsizeO fs < fuel →
      parseObjTail fuel
        (dumpsObjChars fs (cur + 2) ++ '\n' :: (spaces cur ++ ('\x7d' :: rest))) =
        some (fs, rest)) := by
  intro fuel
  induction fuel with
  | zero =>
    refine ⟨fun v cur rest hf _ => ?_, fun xs cur rest hf => ?_,
      fun k v cur rest hf _ => ?_, fun fs cur rest hf => ?_⟩
    · exact absurd hf (by have := jsize_pos v; omega)
    · omega
    · omega
    · omega
  | succ fuel ih =>
    obtain ⟨ihV, ihA, ihM, ihO⟩ := ih
    refine ⟨?_, ?_, ?_, ?_⟩
    · -- parseVal
      intro v cur rest hf hrest
      cases v with
      | null => rfl
      | bool b => cases b with | true => rfl | false => rfl
      | str s =>
        have hs : dumpsChars (.str s) cur ++ rest =
            '"' :: (escapeChars s.data ++ ('"' :: rest)) := by
          show quoteChars s.data ++ rest = _
          rw [quoteChars]
          simp
        rw [hs, parseVal_quote, parseStringBody_escape]
      | int n =>
        by_cases hneg : n < 0
        · have hd : dumpsChars (.int n) cur ++ rest =
              '-' :: (natToChars (-n).toNat ++ rest) := by
            show intToChars n ++ rest = _
            rw [intToChars, if_pos hneg, List.cons_append]
          obtain ⟨c, t, hct, hdg⟩ := natToChars_head (-n).toNat
          rw [hd, parseVal_dash,
            show natToChars (-n).toNat ++ rest = c :: (t ++ rest) from by rw [hct]; rfl]
          split
          next d r2 heq =>
            injection heq with e1 e2
            subst e1
            subst e2
            rw [if_pos hdg]
            have hp : parseDigits (c :: (t ++ rest)) 0 = ((-n).toNat, rest) := by
              rw [show c :: (t ++ rest) = natToChars (-n).toNat ++ rest from by
                rw [hct]; rfl]
              exact parseDigits_natToChars _ hrest
            rw [hp]
            show some (JVal.int (-((((-n).toNat) : Nat) : Int)), rest) =
              some (JVal.int n, rest)
            rw [show -((((-n).toNat) : Nat) : Int) = n from by omega]
          next heq => simp at heq
        · have hd : dumpsChars (.int n) cur ++ rest = natToChars n.toNat ++ rest := by
            show intToChars n ++ rest = _
            rw [intToChars, if_neg hneg]
          obtain ⟨c, t, hct, hdg⟩ := natToChars_head n.toNat
          rw [hd, show natToChars n.toNat ++ rest = c :: (t ++ rest) from by rw [hct]; rfl,
            parseVal_digitHead fuel c _ hdg]
          have hp : parseDigits (c :: (t ++ rest)) 0 = (n.toNat, rest) := by
            rw [show c :: (t ++ rest) = natToChars n.toNat ++ rest from by rw [hct]; rfl]
            exact parseDigits_natToChars _ hrest
          rw [hp, show (((n.toNat : Nat)) : Int) = n from Int.toNat_of_nonneg (by omega)]
      | arr xs =>
        cases xs with
        | nil => rfl
        | cons x xs =>
          have hin : dumpsChars (.arr (x :: xs)) cur ++ rest =
              '[' :: ('\n' :: (spaces (cur + 2) ++ (dumpsChars x (cur + 2) ++
                (dumpsArrChars xs (cur + 2) ++
                  ('\n' :: (spaces cur ++ (']' :: rest))))))) := by
            show ('[' :: '\n' :: spaces (cur + 2) ++ dumpsChars x (cur + 2) ++
              dumpsArrChars xs (cur + 2) ++ '\n' :: spaces cur ++ [']']) ++ rest = _
            simp
          obtain ⟨c0, t0, hct0, hws0, hne0⟩ := dumpsChars_shape x (cur + 2)
          rw [hin, parseVal_openBracket, skipWs_nl, skipWs_spaces,
            show dumpsChars x (cur + 2) ++ (dumpsArrChars xs (cur + 2) ++
                ('\n' :: (spaces cur ++ (']' :: rest)))) =
              c0 :: (t0 ++ (dumpsArrChars xs (cur + 2) ++
                ('\n' :: (spaces cur ++ (']' :: rest))))) from by rw [hct0]; rfl,
            skipWs_cons_not_ws hws0]
          split
          next r heq =>
            injection heq with e1 e2
            exact absurd e1 hne0
          next hcatch =>
            rw [show c0 :: (t0 ++ (dumpsArrChars xs (cur + 2) ++
                ('\n' :: (spaces cur ++ (']' :: rest))))) =
              dumpsChars x (cur + 2) ++ (dumpsArrChars xs (cur + 2) ++
                ('\n' :: (spaces cur ++ (']' :: rest)))) from by rw [hct0]; rfl]
            have h1 := jsize_pos x
            simp only [jsize, jsizeL] at hf
            rw [ihV x (cur + 2) _ (by omega) (headNotDigit_dumpsArr xs (cur + 2) _)]
            show (match parseArrTail fuel (dumpsArrChars xs (cur + 2) ++
                ('\n' :: (spaces cur ++ (']' :: rest)))) with
              | some (vs, r4) => some (JVal.arr (x :: vs), r4)
              | none => none) = some (JVal.arr (x :: xs), rest)
            rw [ihA xs cur rest (by omega)]
      | obj fs =>
        cases fs with
        | nil => rfl
        | cons f fs =>
          obtain ⟨k, val⟩ := f
          have hin : dumpsChars (.obj ((k, val) :: fs)) cur ++ rest =
              '\x7b' :: ('\n' :: (spaces (cur + 2) ++ ('"' :: (escapeChars k.data ++
                ('"' :: (':' :: (' ' :: (dumpsChars val (cur + 2) ++
                  (dumpsObjChars fs (cur + 2) ++
                    ('\n' :: (spaces cur ++ ('\x7d' :: rest)))))))))))) := by
            show ('\x7b' :: '\n' :: spaces (cur + 2) ++ quoteChars k.toList ++ ':' :: ' ' ::
              dumpsChars val (cur + 2) ++ dumpsObjChars fs (cur + 2) ++
              '\n' :: spaces cur ++ ['\x7d']) ++ rest = _
            simp [quoteChars]
          rw [hin, parseVal_openBrace, skipWs_nl, skipWs_spaces,
            skipWs_cons_not_ws (by decide : isWsChar '"' = false)]
          show (match parseMember fuel ('"' :: (escapeChars k.data ++
              ('"' :: (':' :: (' ' :: (dumpsChars val (cur + 2) ++
                (dumpsObjChars fs (cur + 2) ++
                  ('\n' :: (spaces cur ++ ('\x7d' :: rest)))))))))) with
            | some (kv, r3) =>
              match parseObjTail fuel r3 with
              | some (kvs, r4) => some (JVal.obj (kv :: kvs), r4)
              | none => none
            | none => none) = some (JVal.obj ((k, val) :: fs), rest)
          have h1 := jsize_pos val
          simp only [jsize, jsizeO] at hf
          rw [ihM k val (cur + 2) _ (by omega) (headNotDigit_dumpsObj fs (cur + 2) _)]
          show (match parseObjTail fuel (dumpsObjChars fs (cur + 2) ++
              ('\n' :: (spaces cur ++ ('\x7d' :: rest)))) with
            | some (kvs, r4) => some (JVal.obj ((k, val) :: kvs), r4)
            | none => none) = some (JVal.obj ((k, val) :: fs), rest)
          rw [ihO fs cur rest (by omega)]
    · -- parseArrTail
      intro xs cur rest hf
      cases xs with
      | nil =>
        rw [show dumpsArrChars [] (cur + 2) ++ '\n' :: (spaces cur ++ (']' :: rest)) =
          '\n' :: (spaces cur ++ (']' :: rest)) from rfl]
        rw [parseArrTail, skipWs_nl, skipWs_spaces,
          skipWs_cons_not_ws (by decide : isWsChar ']' = false)]
        rfl
      | cons y ys =>
        have hin : dumpsArrChars (y :: ys) (cur + 2) ++ '\n' :: (spaces cur ++ (']' :: rest)) =
            ',' :: ('\n' :: (spaces (cur + 2) ++ (dumpsChars y (cur + 2) ++
              (dumpsArrChars ys (cur + 2) ++
                ('\n' :: (spaces cur ++ (']' :: rest))))))) := by
          show (',' :: '\n' :: spaces (cur + 2) ++ dumpsChars y (cur + 2) ++
            dumpsArrChars ys (cur + 2)) ++ _ = _
          simp
        rw [hin, parseArrTail, skipWs_cons_not_ws (by decide : isWsChar ',' = false)]
        show (match parseVal fuel ('\n' :: (spaces (cur + 2) ++ (dumpsChars y (cur + 2) ++
            (dumpsArrChars ys (cur + 2) ++ ('\n' :: (spaces cur ++ (']' :: rest))))))) with
          | some (v, r2) =>
            match parseArrTail fuel r2 with
            | some (vs, r3) => some (v :: vs, r3)
            | none => none
          | none => none) = some (y :: ys, rest)
        rw [parseVal_ws_congr fuel _ (dumpsChars y (cur + 2) ++ (dumpsArrChars ys (cur + 2) ++
          ('\n' :: (spaces cur ++ (']' :: rest))))) (by rw [skipWs_nl, skipWs_spaces])]
        have h1 := jsize_pos y
        simp only [jsizeL] at hf
        rw [ihV y (cur + 2) _ (by omega) (headNotDigit_dumpsArr ys (cur + 2) _)]
        show (match parseArrTail fuel (dumpsArrChars ys (cur + 2) ++
            ('\n' :: (spaces cur ++ (']' :: rest)))) with
          | some (vs, r3) => some (y :: vs, r3)
          | none => none) = some (y :: ys, rest)
        rw [ihA ys cur rest (by omega)]
    · -- parseMember
      intro k v cur rest hf hrest
      rw [parseMember, skipWs_cons_not_ws (by decide : isWsChar '"' = false)]
      show (match parseStringBody (escapeChars k.data ++
          ('"' :: (':' :: (' ' :: (dumpsChars v cur ++ rest))))) with
        | some (cs, r) =>
          match skipWs r with
          | ':' :: r2 =>
            match parseVal fuel r2 with
            | some (v2, r3) => some ((⟨cs⟩, v2), r3)
            | none => none
          | _ => none
        | none => none) = some ((k, v), rest)
      rw [parseStringBody_escape]
      show (match skipWs (':' :: (' ' :: (dumpsChars v cur ++ rest))) with
        | ':' :: r2 =>
          match parseVal fuel r2 with
          | some (v2, r3) => some ((⟨k.data⟩, v2), r3)
          | none => none
        | _ => none) = some ((k, v), rest)
      rw [skipWs_cons_not_ws (by decide : isWsChar ':' = false)]
      show (match parseVal fuel (' ' :: (dumpsChars v cur ++ rest)) with
        | some (v2, r3) => some ((⟨k.data⟩, v2), r3)
        | none => none) = some ((k, v), rest)
      rw [parseVal_ws_congr fuel _ (dumpsChars v cur ++ rest) (by rw [skipWs_space]),
        ihV v cur rest (by omega) hrest]
    · -- parseObjTail
      intro fs cur rest hf
      cases fs with
      | nil =>
        rw [show dumpsObjChars [] (cur + 2) ++ '\n' :: (spaces cur ++ ('\x7d' :: rest)) =
          '\n' :: (spaces cur ++ ('\x7d' :: rest)) from rfl]
        rw [parseObjTail, skipWs_nl, skipWs_spaces,
          skipWs_cons_not_ws (by decide : isWsChar '\x7d' = false)]
        rfl
      | cons g gs =>
        obtain ⟨k, val⟩ := g
        have hin : dumpsObjChars ((k, val) :: gs) (cur + 2) ++
            '\n' :: (spaces cur ++ ('\x7d' :: rest)) =
            ',' :: ('\n' :: (spaces (cur + 2) ++ ('"' :: (escapeChars k.data ++
              ('"' :: (':' :: (' ' :: (dumpsChars val (cur + 2) ++
                (dumpsObjChars gs (cur + 2) ++
                  ('\n' :: (spaces cur ++ ('\x7d' :: rest)))))))))))) := by
          show (',' :: '\n' :: spaces (cur + 2) ++ quoteChars k.toList ++ ':' :: ' ' ::
            dumpsChars val (cur + 2) ++ dumpsObjChars gs (cur + 2)) ++ _ = _
          simp [quoteChars]
        rw [hin, parseObjTail, skipWs_cons_not_ws (by decide : isWsChar ',' = false)]
        show (match parseMember fuel ('\n' :: (spaces (cur + 2) ++ ('"' :: (escapeChars k.data ++
            ('"' :: (':' :: (' ' :: (dumpsChars val (cur + 2) ++
              (dumpsObjChars gs (cur + 2) ++
                ('\n' :: (spaces cur ++ ('\x7d' :: rest)))))))))))) with
          | some (kv, r2) =>
            match parseObjTail fuel r2 with
            | some (kvs, r3) => some (kv :: kvs, r3)
            | none => none
          | none => none) = some ((k, val) :: gs, rest)
        rw [parseMember_ws_congr fuel _ ('"' :: (escapeChars k.data ++
          ('"' :: (':' :: (' ' :: (dumpsChars val (cur + 2) ++
            (dumpsObjChars gs (cur + 2) ++ ('\n' :: (spaces cur ++ ('\x7d' :: rest))))))))))
          (by rw [skipWs_nl, skipWs_spaces])]
        have h1 := jsize_pos val
        simp only [jsizeO] at hf
        rw [ihM k val (cur + 2) _ (by omega) (headNotDigit_dumpsObj gs (cur + 2) _)]
        show (match parseObjTail fuel (dumpsObjChars gs (cur + 2) ++
            ('\n' :: (spaces cur ++ ('\x7d' :: rest)))) with
          | some (kvs, r3) => some ((k, val) :: kvs, r3)
          | none => none) = some ((k, val) :: gs, rest)
        rw [ihO gs cur rest (by omega)]

mutual

theorem jsize_le_len : ∀ (v : JVal) (cur : Nat), jsize v ≤ (dumpsChars v cur).length
  | .null, cur => by simp [jsize, dumpsChars]
  | .bool b, cur => by cases b <;> simp [jsize, dumpsChars]
  | .int n, cur => by
    simp only [jsize, dumpsChars]
    rw [intToChars]
    by_cases h : n < 0
    · simp [h]
    · rw [if_neg h]
      obtain ⟨c, t, hct, -⟩ := natToChars_head n.toNat
      rw [hct]
      simp
  | .str s, cur => by simp [jsize, dumpsChars, quoteChars]
  | .arr [], cur => by simp [jsize, jsizeL, dumpsChars]
  | .arr (x :: xs), cur => by
    have h1 := jsize_le_len x (cur + 2)
    have h2 := jsizeL_le_len xs (cur + 2)
    simp only [jsize, jsizeL, dumpsChars]
    simp [spaces]
    omega
  | .obj [], cur => by simp [jsize, jsizeO, dumpsChars]
  | .obj (f :: fs), cur => by
    have h1 := jsize_le_len f.2 (cur + 2)
    have h2 := jsizeO_le_len fs (cur + 2)
    simp only [jsize, jsizeO, dumpsChars]
    simp [spaces, quoteChars]
    omega

theorem jsizeL_le_len : ∀ (xs : List JVal) (ind : Nat),
    jsizeL xs ≤ (dumpsArrChars xs ind).length
  | [], ind => by simp [jsizeL, dumpsArrChars]
  | x :: xs, ind => by
    have h1 := jsize_le_len x ind
    have h2 := jsizeL_le_len xs ind
    simp only [jsizeL, dumpsArrChars]
    simp [spaces]
    omega

theorem jsizeO_le_len : ∀ (fs : List (String × JVal)) (ind : Nat),
    jsizeO fs ≤ (dumpsObjChars fs ind).length
  | [], ind => by simp [jsizeO, dumpsObjChars]
  | f :: fs, ind => by
    have h1 := jsize_le_len f.2 ind
    have h2 := jsizeO_le_len fs ind
    simp only [jsizeO, dumpsObjChars]
    simp [spaces, quoteChars]
    omega

end

/-! ### Claim C8 -/

/-- Claim C8: round trip: for every record returned by `lookup`,
serializing it as 2-space-indented JSON (as `main` does) and re-parsing
the resulting text yields a value deep-equal to the original record. -/
theorem claim_C8 (index : List (String × JVal)) (host : String) (r : JVal)
    (_h : lookup index host = .ok r) :
    json_loads (dumps r) = some r := by
  have hfuel : jsize r ≤ (dumpsChars r 0).length + 1 := by
    have := jsize_le_len r 0
    omega
  have hround : parseVal ((dumpsChars r 0).length + 1) (dumpsChars r 0 ++ []) =
      some (r, []) :=
    (parse_dumps ((dumpsChars r 0).length + 1)).1 r 0 [] hfuel rfl
  rw [List.append_nil] at hround
  rw [show json_loads (dumps r) =
    (match parseVal ((dumpsChars r 0).length + 1) (dumpsChars r 0) with
     | some (v, rr) => if (skipWs rr).isEmpty then some v else none
     | none => none) from rfl]
  rw [hround]
  rfl

/-- Witness for C8 on a concrete looked-up record. -/
theorem claim_C8_witness : json_loads (dumps sampleRow) = some sampleRow :=
  claim_C8 [("alpha", sampleRow)] "ALPHA" sampleRow rfl

end ServerLookup
